import Mathlib

/-!
Verification of the selection strategies of `src/selection_method.py`.

The Python module implements seven genetic-algorithm selection strategies.
This file gives a shallow embedding of the module over exact rationals and
proves or refutes the frozen claims about it.

Modelling conventions:
* `float` values are modelled as `ℚ` (exact arithmetic).
* The process-wide pseudo-random source is modelled by explicit streams:
  `rs : ℕ → ℚ` gives the value of `random.random()` consumed by draw `i`,
  index streams `ℕ → ℕ` give the values of `random.randint(0, length-1)`,
  and scalars model single `random.uniform` calls.
* A Python `ZeroDivisionError` is modelled by `Option`: `none` is raised
  exactly where the Python code divides by zero.
* `math.exp` is transcendental, hence not representable over `ℚ`; it is
  passed as an explicit function parameter `E : ℚ → ℚ`.  Theorems assume of
  it only what the real exponential satisfies (for instance `0 < E x`).
* `list.sort(key=..., reverse=True)` is Python's stable descending sort;
  it is modelled by a stable descending insertion sort.
* `Individual` (imported by the module, not part of it) is opaque: it is an
  element of an arbitrary type `α` together with a fitness accessor
  `α → ℚ`.  Python reference equality is equality in `α`, and a population
  holding the same reference twice is a list with a repeated element.
-/

/-- Stable descending insertion step: `x` is placed before the first element
whose key is not larger, so elements with equal keys keep their original
relative order, as in Python's stable sort. -/
def insertDesc {α : Type*} (f : α → ℚ) (x : α) : List α → List α
  | [] => [x]
  | y :: ys => if f y ≤ f x then x :: y :: ys else y :: insertDesc f x ys

/-- Model of `population.sort(key=lambda ind: ind.fitness(), reverse=True)`:
the stable sort by fitness, best first. -/
def sortDesc {α : Type*} (f : α → ℚ) : List α → List α
  | [] => []
  | x :: xs => insertDesc f x (sortDesc f xs)

lemma insertDesc_length {α : Type*} (f : α → ℚ) (x : α) (l : List α) :
    (insertDesc f x l).length = l.length + 1 := by
  induction l with
  | nil => rfl
  | cons y ys ih =>
    rw [insertDesc]
    by_cases h : f y ≤ f x
    · rw [if_pos h]
      rfl
    · rw [if_neg h, List.length_cons, ih, List.length_cons]

lemma sortDesc_length {α : Type*} (f : α → ℚ) (l : List α) :
    (sortDesc f l).length = l.length := by
  induction l with
  | nil => rfl
  | cons x xs ih => rw [sortDesc, insertDesc_length, ih, List.length_cons]

/-- The inner loop of `do_roulette` (lines 50-55 of the source): walk the
`(individual, weight)` pairs keeping the accumulated relative weight `acc`;
the division `fitness_list[j] / fitness_sum` raises `ZeroDivisionError`
(modelled as `none`) when the total `S` is zero. -/
def rouletteWalk {α : Type*} (S acc r : ℚ) : List (α × ℚ) → Option (List α)
  | [] => some []
  | (x, w) :: rest =>
    if S = 0 then none
    else
      if acc < r ∧ r ≤ acc + w / S then some [x]
      else rouletteWalk S (acc + w / S) r rest

/-- The outer loop of `do_roulette`: one walk per element of the draw-index
list, concatenating the selected individuals. -/
def do_rouletteAux {α : Type*} (pairs : List (α × ℚ)) (S : ℚ) (rs : ℕ → ℚ) :
    List ℕ → Option (List α)
  | [] => some []
  | i :: is => do
    let d ← rouletteWalk S 0 (rs i) pairs
    let rest ← do_rouletteAux pairs S rs is
    pure (d ++ rest)

/-- Model of `do_roulette(population, length, k, fitness_list)`.  The random
value `random.random()` consumed by draw `i` is `rs i`. -/
def do_roulette {α : Type*} (population : List α) (len k : ℕ)
    (fitness_list : List ℚ) (rs : ℕ → ℚ) : Option (List α) :=
  do_rouletteAux ((population.zip fitness_list).take len) fitness_list.sum rs
    (List.range k)

/-- Model of `EliteSelection`'s per-rank quota `math.ceil((k - i) / length)`. -/
def eliteQuota (k L i : ℕ) : ℕ := (⌈((k : ℚ) - (i : ℚ)) / (L : ℚ)⌉).toNat

/-- Model of `EliteSelection.get_winners`: sort best first, then append
`eliteQuota k length i` copies of the individual at sorted rank `i`. -/
def EliteSelection.get_winners {α : Type*} (fitness : α → ℚ)
    (population : List α) (k : ℕ) : List α :=
  if population.length = 0 then []
  else
    ((sortDesc fitness population).enum.map
      (fun p => List.replicate (eliteQuota k population.length p.1) p.2)).flatten

/-- Model of `RouletteWheelSelection.get_winners`. -/
def RouletteWheelSelection.get_winners {α : Type*} (fitness : α → ℚ)
    (population : List α) (k : ℕ) (rs : ℕ → ℚ) : Option (List α) :=
  if population.length = 0 then some []
  else do_roulette population population.length k (population.map fitness) rs

/-- Model of `UniversalSelection.get_winners`: the source inlines exactly the
accumulated-weight loop of `do_roulette`, with the `k` evenly spaced pointers
`(r + i) / k` in place of `k` independent uniforms (`r` is the single
`random.random()` value). -/
def UniversalSelection.get_winners {α : Type*} (fitness : α → ℚ)
    (population : List α) (k : ℕ) (r : ℚ) : Option (List α) :=
  if population.length = 0 then some []
  else do_roulette population population.length k (population.map fitness)
    (fun i => (r + i) / k)

/-- The rank weight vector of `RankSelection`:
`(length - (idx + 1)) / length` at sorted index `idx`. -/
def rankWeights (L : ℕ) : List ℚ :=
  (List.range L).map (fun idx : ℕ => ((L : ℚ) - ((idx : ℚ) + 1)) / L)

/-- Model of `RankSelection.get_winners`: sort best first, build the rank
weight vector, feed it to `do_roulette`. -/
def RankSelection.get_winners {α : Type*} (fitness : α → ℚ)
    (population : List α) (k : ℕ) (rs : ℕ → ℚ) : Option (List α) :=
  if population.length = 0 then some []
  else do_roulette (sortDesc fitness population) population.length k
    (rankWeights population.length) rs

/-- Model of `temperature(t0, tc, k, t) = tc + (t0 - tc) * math.exp(-k * t)`
(the source names the cooling rate `k`); `E` stands for `math.exp`. -/
def temperature (t0 tc k : ℚ) (t : ℕ) (E : ℚ → ℚ) : ℚ :=
  tc + (t0 - tc) * E (-(k * t))

/-- Model of `EntropicBoltzmannSelection.get_winners` with constructor
parameters `t0`, `tc`, `rate` (the source stores the rate in `self._k`).
Note that the temperature is evaluated at `t = k`, the requested output
count.  The two `none` branches are the Python `ZeroDivisionError`s raised
by `ind.fitness() / temp` and `fitness / avg_population`. -/
def EntropicBoltzmannSelection.get_winners {α : Type*} (t0 tc rate : ℚ)
    (E : ℚ → ℚ) (fitness : α → ℚ) (population : List α) (k : ℕ)
    (rs : ℕ → ℚ) : Option (List α) :=
  if population.length = 0 then some []
  else
    let temp := temperature t0 tc rate k E
    if temp = 0 then none
    else
      let pseudo := population.map (fun ind => E (fitness ind / temp))
      let avg := pseudo.sum / pseudo.length
      if avg = 0 then none
      else do_roulette population population.length k
        (pseudo.map (fun f => f / avg)) rs

/-- The pseudo-fitness list built by `EntropicBoltzmannSelection`
(line 123 of the source): `exp(fitness / temp)` for each individual. -/
def boltzmannPseudo {α : Type*} (t0 tc rate : ℚ) (E : ℚ → ℚ) (fitness : α → ℚ)
    (population : List α) (k : ℕ) : List ℚ :=
  population.map (fun ind => E (fitness ind / temperature t0 tc rate k E))

/-- The weight vector `EntropicBoltzmannSelection` passes to the engine:
each pseudo-fitness divided by their mean (lines 124-125 of the source). -/
def boltzmannWeights {α : Type*} (t0 tc rate : ℚ) (E : ℚ → ℚ) (fitness : α → ℚ)
    (population : List α) (k : ℕ) : List ℚ :=
  (boltzmannPseudo t0 tc rate E fitness population k).map
    (fun f => f / ((boltzmannPseudo t0 tc rate E fitness population k).sum /
      (boltzmannPseudo t0 tc rate E fitness population k).length))

/-- One draw of `DeterministicTournamentSelection`: sample the individuals at
positions `idx start, idx (start+1), ..., idx (start+m-1)` (the stream `idx`
models successive `random.randint(0, length-1)` results) and keep the first
one of maximal fitness (the comparison `best_fitness < aux_fitness` is
strict, so earlier samples win ties). -/
def tournamentRound {α : Type*} [Inhabited α] (fitness : α → ℚ)
    (population : List α) (idx : ℕ → ℕ) (start m : ℕ) : α :=
  (List.range (m - 1)).foldl
    (fun best j =>
      let chosen := population.getD (idx (start + 1 + j)) default
      if fitness best < fitness chosen then chosen else best)
    (population.getD (idx start) default)

/-- Model of `DeterministicTournamentSelection(m).get_winners`; draw `i`
consumes the index-stream entries `i*m, ..., i*m + m - 1`. -/
def DeterministicTournamentSelection.get_winners {α : Type*} [Inhabited α]
    (m : ℕ) (fitness : α → ℚ) (population : List α) (k : ℕ)
    (idx : ℕ → ℕ) : List α :=
  if population.length = 0 then []
  else (List.range k).map (fun i => tournamentRound fitness population idx (i * m) m)

/-- Model of `ProbabilisticTournamentSelection.get_winners`: `threshold`
models the single per-call `random.uniform(0.5, 1)`, `i1 i`/`i2 i` the two
`random.randint(0, length-1)` of draw `i`, and `u i` its `random.uniform(0, 1)`.
The comparison is strict (`first_fitness > second_fitness`), so on a tie the
`else` branch makes the second sample `best` and the first `worst`. -/
def ProbabilisticTournamentSelection.get_winners {α : Type*} [Inhabited α]
    (fitness : α → ℚ) (population : List α) (k : ℕ) (threshold : ℚ)
    (i1 i2 : ℕ → ℕ) (u : ℕ → ℚ) : List α :=
  if population.length = 0 then []
  else (List.range k).map (fun i =>
    let first := population.getD (i1 i) default
    let second := population.getD (i2 i) default
    let best := if fitness second < fitness first then first else second
    let worst := if fitness second < fitness first then second else first
    if u i < threshold then best else worst)

/-! ### Spec-side description of one roulette draw.

Transcribed from the claim (and section 4.3 of the spec), not from the
source: a draw with uniform value `r` selects `population[j]` for the first
index `j` such that `acc < r ≤ acc + w_j / S`, where `acc` is the sum of the
relative weights `w_t / S` for `t < j`. -/

/-- Accumulated relative weight before index `j` (spec wording). -/
def specAcc (ws : List ℚ) (S : ℚ) (j : ℕ) : ℚ :=
  ((ws.take j).map (fun w => w / S)).sum

/-- First index `j` with `acc < r ≤ acc + w_j / S` (spec wording). -/
def specSelect (ws : List ℚ) (S r : ℚ) : Option ℕ :=
  (List.range ws.length).find? fun j =>
    decide (specAcc ws S j < r ∧ r ≤ specAcc ws S j + ws.getD j 0 / S)

/-- The individuals selected by one spec-side draw: the individual at the
first crossing index, if any. -/
def specDraw {α : Type*} (pop : List α) (ws : List ℚ) (S r : ℚ) : List α :=
  ((specSelect ws S r).bind fun j => pop[j]?).toList

/-! ### Lemmas about the roulette walk and the draw loop -/

lemma specAcc_zero (ws : List ℚ) (S : ℚ) : specAcc ws S 0 = 0 := by
  simp [specAcc]

lemma specAcc_cons (w : ℚ) (ws : List ℚ) (S : ℚ) (j : ℕ) :
    specAcc (w :: ws) S (j + 1) = w / S + specAcc ws S j := by
  simp [specAcc, List.take_succ_cons]

/-- The accumulated-weight walk of the source, started at accumulator `acc`,
computes the first-crossing search described by the spec (offset by `acc`). -/
lemma rouletteWalk_eq_find {α : Type*} (S r : ℚ) (hS : S ≠ 0) :
    ∀ (ws : List ℚ) (pop : List α) (acc : ℚ), pop.length = ws.length →
    rouletteWalk S acc r (pop.zip ws) =
      some ((((List.range ws.length).find? fun j =>
        decide (acc + specAcc ws S j < r ∧
          r ≤ acc + specAcc ws S j + ws.getD j 0 / S)).bind
            fun j => pop[j]?).toList) := by
  intro ws
  induction ws with
  | nil =>
    intro pop acc h
    have : pop = [] := List.length_eq_zero.mp h
    subst this
    simp [rouletteWalk]
  | cons w ws' ih =>
    intro pop acc h
    match pop with
    | [] => simp at h
    | p :: pop' =>
      simp only [List.length_cons] at h
      have hlen : pop'.length = ws'.length := by omega
      rw [List.zip_cons_cons, rouletteWalk, if_neg hS]
      rw [List.length_cons, List.range_succ_eq_map, List.find?_cons]
      by_cases hc : acc < r ∧ r ≤ acc + w / S
      · rw [if_pos hc]
        have hb : (decide (acc + specAcc (w :: ws') S 0 < r ∧
            r ≤ acc + specAcc (w :: ws') S 0 + (w :: ws').getD 0 0 / S)) = true := by
          apply decide_eq_true
          simpa [specAcc_zero] using hc
        rw [hb]
        simp
      · rw [if_neg hc]
        have hb : (decide (acc + specAcc (w :: ws') S 0 < r ∧
            r ≤ acc + specAcc (w :: ws') S 0 + (w :: ws').getD 0 0 / S)) = false := by
          apply decide_eq_false
          simpa [specAcc_zero] using hc
        rw [hb, ih pop' (acc + w / S) hlen, List.find?_map]
        have hfun : ((fun j => decide (acc + specAcc (w :: ws') S j < r ∧
              r ≤ acc + specAcc (w :: ws') S j + (w :: ws').getD j 0 / S)) ∘ Nat.succ) =
            (fun j => decide (acc + w / S + specAcc ws' S j < r ∧
              r ≤ acc + w / S + specAcc ws' S j + ws'.getD j 0 / S)) := by
          funext j
          simp only [Function.comp, Nat.succ_eq_add_one]
          have h1 : acc + specAcc (w :: ws') S (j+1) = acc + w / S + specAcc ws' S j := by
            rw [specAcc_cons]; ring
          rw [show (w :: ws').getD (j+1) 0 = ws'.getD j 0 from rfl, h1]
        rw [hfun]
        cases hfound : (List.find? (fun j =>
            decide (acc + w / S + specAcc ws' S j < r ∧
              r ≤ acc + w / S + specAcc ws' S j + ws'.getD j 0 / S))
            (List.range ws'.length)) with
        | none => simp
        | some j => simp

/-- Started at accumulator `0`, the walk computes exactly one spec draw. -/
lemma rouletteWalk_eq_specDraw {α : Type*} (pop : List α) (ws : List ℚ)
    (r : ℚ) (hS : ws.sum ≠ 0) (hlen : pop.length = ws.length) :
    rouletteWalk ws.sum 0 r (pop.zip ws) = some (specDraw pop ws ws.sum r) := by
  rw [rouletteWalk_eq_find ws.sum r hS ws pop 0 hlen]
  simp only [zero_add]
  rfl

/-- When the total weight is nonzero, the walk never raises. -/
lemma rouletteWalk_isSome {α : Type*} (S r : ℚ) (hS : S ≠ 0) :
    ∀ (pairs : List (α × ℚ)) (acc : ℚ), ∃ out, rouletteWalk S acc r pairs = some out := by
  intro pairs
  induction pairs with
  | nil => exact fun acc => ⟨[], rfl⟩
  | cons q rest ih =>
    intro acc
    obtain ⟨x, w⟩ := q
    rw [rouletteWalk, if_neg hS]
    by_cases hc : acc < r ∧ r ≤ acc + w / S
    · exact ⟨[x], if_pos hc⟩
    · rw [if_neg hc]
      exact ih (acc + w / S)

/-- When the total weight is zero and the inner loop runs, the walk raises
`ZeroDivisionError` at its first division. -/
lemma rouletteWalk_none {α : Type*} (r acc : ℚ) (pairs : List (α × ℚ))
    (hne : pairs ≠ []) : rouletteWalk 0 acc r pairs = none := by
  match pairs with
  | [] => exact absurd rfl hne
  | (x, w) :: rest => rw [rouletteWalk, if_pos rfl]

/-- If the uniform value lies strictly above the current accumulator and at
most the accumulator plus the remaining relative mass, the walk selects
exactly one individual. -/
lemma rouletteWalk_success {α : Type*} (S r : ℚ) (hS : 0 < S) :
    ∀ (pairs : List (α × ℚ)) (acc : ℚ), (∀ p ∈ pairs, 0 ≤ p.2) →
    acc < r → r ≤ acc + (pairs.map Prod.snd).sum / S →
    ∃ x, rouletteWalk S acc r pairs = some [x] := by
  intro pairs
  induction pairs with
  | nil =>
    intro acc _ hlow hhigh
    simp only [List.map_nil, List.sum_nil, zero_div, add_zero] at hhigh
    exact absurd (lt_of_lt_of_le hlow hhigh) (lt_irrefl acc)
  | cons q rest ih =>
    intro acc hnn hlow hhigh
    obtain ⟨x, w⟩ := q
    rw [rouletteWalk, if_neg (ne_of_gt hS)]
    by_cases hc : acc < r ∧ r ≤ acc + w / S
    · exact ⟨x, if_pos hc⟩
    · rw [if_neg hc]
      have hwp : acc + w / S < r := by
        rcases (not_and_or.mp hc) with h | h
        · exact absurd hlow h
        · exact lt_of_not_le h
      apply ih (acc + w / S) (fun p hp => hnn p (List.mem_cons_of_mem _ hp)) hwp
      have hsum : ((x, w) :: rest).map Prod.snd = w :: rest.map Prod.snd := rfl
      rw [hsum, List.sum_cons, add_div] at hhigh
      linarith [hhigh]

/-- Any individual returned by the walk sits at a position whose relative
weight is strictly positive. -/
lemma rouletteWalk_mem {α : Type*} (S r : ℚ) :
    ∀ (pairs : List (α × ℚ)) (acc : ℚ) (out : List α),
    rouletteWalk S acc r pairs = some out → ∀ x ∈ out,
    ∃ j, ∃ hj : j < pairs.length, (pairs.get ⟨j, hj⟩).1 = x ∧
      0 < (pairs.get ⟨j, hj⟩).2 / S := by
  intro pairs
  induction pairs with
  | nil =>
    intro acc out h x hx
    rw [rouletteWalk] at h
    cases h
    simp at hx
  | cons q rest ih =>
    intro acc out h x hx
    obtain ⟨y, w⟩ := q
    rw [rouletteWalk] at h
    by_cases hS : S = 0
    · rw [if_pos hS] at h
      cases h
    · rw [if_neg hS] at h
      by_cases hc : acc < r ∧ r ≤ acc + w / S
      · rw [if_pos hc] at h
        cases h
        have hxy : x = y := by simpa using hx
        refine ⟨0, by simp, by simpa using hxy.symm, ?_⟩
        have : 0 < w / S := by linarith [hc.1, hc.2]
        simpa using this
      · rw [if_neg hc] at h
        obtain ⟨j, hj, hfst, hsnd⟩ := ih (acc + w / S) out h x hx
        exact ⟨j + 1, by simpa using Nat.succ_lt_succ hj, hfst, hsnd⟩

/-- With no pairs to walk, every draw silently selects nothing. -/
lemma do_rouletteAux_nil {α : Type*} (S : ℚ) (rs : ℕ → ℚ) :
    ∀ l : List ℕ, do_rouletteAux ([] : List (α × ℚ)) S rs l = some [] := by
  intro l
  induction l with
  | nil => rfl
  | cons i is ih =>
    rw [do_rouletteAux, ih]
    rfl

/-- When the total weight is nonzero, the draw loop never raises. -/
lemma do_rouletteAux_isSome {α : Type*} (pairs : List (α × ℚ)) (S : ℚ)
    (rs : ℕ → ℚ) (hS : S ≠ 0) :
    ∀ l : List ℕ, ∃ out, do_rouletteAux pairs S rs l = some out := by
  intro l
  induction l with
  | nil => exact ⟨[], rfl⟩
  | cons i is ih =>
    obtain ⟨d, hd⟩ := rouletteWalk_isSome S (rs i) hS pairs 0
    obtain ⟨rest, hrest⟩ := ih
    refine ⟨d ++ rest, ?_⟩
    rw [do_rouletteAux, hd, hrest]
    rfl

/-- When the total weight is zero and both loops run, the first division of
the first draw raises. -/
lemma do_rouletteAux_none {α : Type*} (pairs : List (α × ℚ)) (rs : ℕ → ℚ)
    (hpairs : pairs ≠ []) :
    ∀ l : List ℕ, l ≠ [] → do_rouletteAux pairs 0 rs l = none := by
  intro l hl
  match l with
  | [] => exact absurd rfl hl
  | i :: is => rw [do_rouletteAux, rouletteWalk_none (rs i) 0 pairs hpairs]; rfl

/-- The draw loop is the concatenation of the spec draws. -/
lemma do_rouletteAux_eq_spec {α : Type*} (pop : List α) (ws : List ℚ)
    (rs : ℕ → ℚ) (hS : ws.sum ≠ 0) (hlen : pop.length = ws.length) :
    ∀ l : List ℕ, do_rouletteAux (pop.zip ws) ws.sum rs l =
      some ((l.map (fun i => specDraw pop ws ws.sum (rs i))).flatten) := by
  intro l
  induction l with
  | nil => rfl
  | cons i is ih =>
    rw [do_rouletteAux, rouletteWalk_eq_specDraw pop ws (rs i) hS hlen, ih]
    rfl

/-- If every listed draw selects exactly one individual, the loop returns one
individual per draw. -/
lemma do_rouletteAux_length {α : Type*} (pairs : List (α × ℚ)) (S : ℚ)
    (rs : ℕ → ℚ) :
    ∀ l : List ℕ, (∀ i ∈ l, ∃ x, rouletteWalk S 0 (rs i) pairs = some [x]) →
    ∃ out, do_rouletteAux pairs S rs l = some out ∧ out.length = l.length := by
  intro l
  induction l with
  | nil => exact fun _ => ⟨[], rfl, rfl⟩
  | cons i is ih =>
    intro hdraw
    obtain ⟨x, hx⟩ := hdraw i (List.mem_cons_self i is)
    obtain ⟨rest, hrest, hlen⟩ := ih (fun j hj => hdraw j (List.mem_cons_of_mem i hj))
    refine ⟨[x] ++ rest, ?_, by simp [hlen]⟩
    rw [do_rouletteAux, hx, hrest]
    rfl

/-- Every individual returned by the loop sits at a pair position of strictly
positive relative weight. -/
lemma do_rouletteAux_mem {α : Type*} (pairs : List (α × ℚ)) (S : ℚ)
    (rs : ℕ → ℚ) :
    ∀ (l : List ℕ) (out : List α), do_rouletteAux pairs S rs l = some out →
    ∀ x ∈ out, ∃ j, ∃ hj : j < pairs.length, (pairs.get ⟨j, hj⟩).1 = x ∧
      0 < (pairs.get ⟨j, hj⟩).2 / S := by
  intro l
  induction l with
  | nil =>
    intro out h x hx
    rw [do_rouletteAux] at h
    cases h
    simp at hx
  | cons i is ih =>
    intro out h x hx
    rw [do_rouletteAux] at h
    cases hd : rouletteWalk S 0 (rs i) pairs with
    | none => rw [hd] at h; cases h
    | some d =>
      rw [hd] at h
      cases hrest : do_rouletteAux pairs S rs is with
      | none => rw [hrest] at h; cases h
      | some rest =>
        rw [hrest] at h
        have hout : out = d ++ rest := by
          cases h
          rfl
        subst hout
        rcases List.mem_append.mp hx with hxd | hxr
        · exact rouletteWalk_mem S (rs i) pairs 0 d hd x hxd
        · exact ih rest hrest x hxr

/-- With matching lengths, the `take length` of the source loop bound is the
whole zip. -/
lemma take_zip_eq {α : Type*} (pop : List α) (ws : List ℚ)
    (hlen : ws.length = pop.length) :
    (pop.zip ws).take pop.length = pop.zip ws := by
  apply List.take_of_length_le
  rw [List.length_zip, hlen, min_self]

/-- The second components of a zip with matching lengths are the weights. -/
lemma map_snd_zip_eq {α : Type*} (pop : List α) (ws : List ℚ)
    (hlen : ws.length = pop.length) : (pop.zip ws).map Prod.snd = ws :=
  List.map_snd_zip pop ws (le_of_eq hlen)

/-- The weighted-sampling engine, on a nonzero total, returns exactly the
concatenation of the `k` spec draws. -/
lemma do_roulette_eq_spec {α : Type*} (pop : List α) (ws : List ℚ) (k : ℕ)
    (rs : ℕ → ℚ) (hS : ws.sum ≠ 0) (hlen : ws.length = pop.length) :
    do_roulette pop pop.length k ws rs =
      some (((List.range k).map (fun i => specDraw pop ws ws.sum (rs i))).flatten) := by
  rw [do_roulette, take_zip_eq pop ws hlen,
    do_rouletteAux_eq_spec pop ws rs hS hlen.symm (List.range k)]

/-- The engine never raises when the total weight is nonzero. -/
lemma do_roulette_isSome {α : Type*} (pop : List α) (len k : ℕ) (ws : List ℚ)
    (rs : ℕ → ℚ) (hS : ws.sum ≠ 0) :
    ∃ out, do_roulette pop len k ws rs = some out :=
  do_rouletteAux_isSome _ _ rs hS (List.range k)

/-- Valid weights and in-range uniforms give exactly `k` winners. -/
lemma do_roulette_length {α : Type*} (pop : List α) (ws : List ℚ) (k : ℕ)
    (rs : ℕ → ℚ) (hlen : ws.length = pop.length) (hnn : ∀ w ∈ ws, 0 ≤ w)
    (hS : 0 < ws.sum) (hr : ∀ i, i < k → 0 < rs i ∧ rs i ≤ 1) :
    ∃ out, do_roulette pop pop.length k ws rs = some out ∧ out.length = k := by
  rw [do_roulette, take_zip_eq pop ws hlen]
  have h := do_rouletteAux_length (pop.zip ws) ws.sum rs (List.range k) ?_
  · obtain ⟨out, hout, hlen2⟩ := h
    exact ⟨out, hout, by rw [hlen2, List.length_range]⟩
  · intro i hi
    rw [List.mem_range] at hi
    apply rouletteWalk_success ws.sum (rs i) hS (pop.zip ws) 0
    · intro p hp
      exact hnn p.2 (List.of_mem_zip hp).2
    · exact (hr i hi).1
    · rw [map_snd_zip_eq pop ws hlen, div_self (ne_of_gt hS), zero_add]
      exact (hr i hi).2

/-! ### EliteSelection quota arithmetic -/

lemma eliteQuota_zero (L i : ℕ) : eliteQuota 0 L i = 0 := by
  apply Int.toNat_of_nonpos
  apply Int.ceil_le.mpr
  push_cast
  apply div_nonpos_of_nonpos_of_nonneg
  · simp
  · positivity

lemma ceil_add_div (m' r' : ℤ) (L : ℕ) (hL : 0 < L) (hr0 : 0 < r') (hrL : r' ≤ L) :
    ⌈(((L : ℤ) * m' + r' : ℤ) : ℚ) / (L : ℚ)⌉ = m' + 1 := by
  have hL0 : (L : ℚ) ≠ 0 := by positivity
  have hmm : ((((L : ℤ) * m' + r' : ℤ) : ℚ)) / (L : ℚ) = (m' : ℚ) + (r' : ℚ) / L := by
    field_simp
    ring
  rw [hmm, add_comm, Int.ceil_add_int]
  have h1 : ⌈(r' : ℚ) / (L : ℚ)⌉ = 1 := by
    rw [Int.ceil_eq_iff]
    constructor
    · push_cast
      norm_num
      apply div_pos (by exact_mod_cast hr0) (by positivity)
    · push_cast
      rw [div_le_one (by positivity)]
      exact_mod_cast hrL
  rw [h1, add_comm]

lemma mod_of_sub_emod_zero (k L i : ℕ) (hL : 0 < L) (hi : i < L)
    (h : ((k : ℤ) - i) % L = 0) : i = k % L := by
  have h2 : (L : ℤ) ∣ ((k : ℤ) - i) := Int.dvd_of_emod_eq_zero h
  have h3 : (k : ℤ) % L = (i : ℤ) % L := Int.ModEq.symm (Int.modEq_iff_dvd.mpr h2)
  have h4 : (i : ℤ) % L = i := Int.emod_eq_of_lt (by positivity) (by exact_mod_cast hi)
  omega

lemma sub_emod_zero_of_mod (k L i : ℕ) (hi : i < L) (hm : i = k % L) :
    ((k : ℤ) - i) % L = 0 := by
  have h4 : (i : ℤ) % L = i := Int.emod_eq_of_lt (by positivity) (by exact_mod_cast hi)
  have h5 : ((k : ℕ) % L : ℤ) = (k : ℤ) % (L : ℤ) := by push_cast; ring_nf
  have h6 : (k : ℤ) % L = (i : ℤ) % L := by omega
  rw [Int.sub_emod, h6, sub_self, Int.zero_emod]

/-- One more requested winner raises by one the quota of the rank congruent
to `k` modulo the population length, and no other quota. -/
lemma eliteQuota_succ (k L i : ℕ) (hL : 0 < L) (hi : i < L) :
    eliteQuota (k + 1) L i = eliteQuota k L i + if i = k % L then 1 else 0 := by
  have hL0 : (L : ℚ) ≠ 0 := by positivity
  have hLZ : (L : ℤ) ≠ 0 := by exact_mod_cast Nat.pos_iff_ne_zero.mp hL
  set d : ℤ := (k : ℤ) - i with hdd
  have hsplit : (L : ℤ) * (d / L) + d % L = d := Int.ediv_add_emod d L
  have hcast : ((k : ℚ) + 1 - i) = ((d + 1 : ℤ) : ℚ) := by push_cast [hdd]; ring
  have hcast0 : ((k : ℚ) - i) = ((d : ℤ) : ℚ) := by push_cast [hdd]; ring
  by_cases hm : i = k % L
  · have hd0 : d % L = 0 := sub_emod_zero_of_mod k L i hi hm
    have hdnn : 0 ≤ d := by
      have : k % L ≤ k := Nat.mod_le k L
      omega
    have hq : 0 ≤ d / L := Int.ediv_nonneg hdnn (by omega)
    have e1 : ⌈(d : ℚ) / (L : ℚ)⌉ = d / L := by
      have : ((d : ℤ) : ℚ) = (L : ℚ) * ((d / L : ℤ) : ℚ) := by
        rw [show (L : ℚ) = ((L : ℤ) : ℚ) by push_cast; ring, ← Int.cast_mul]
        exact_mod_cast congrArg (fun z : ℤ => (z : ℚ)) (by omega : d = (L : ℤ) * (d / L))
      rw [this, mul_comm, mul_div_assoc, div_self hL0, mul_one, Int.ceil_intCast]
    have e2 : ⌈((d + 1 : ℤ) : ℚ) / (L : ℚ)⌉ = d / L + 1 := by
      rw [show ((d + 1 : ℤ) : ℚ) = (((L : ℤ) * (d / L) + 1 : ℤ) : ℚ) from
        congrArg (fun z : ℤ => (z : ℚ)) (by omega)]
      exact ceil_add_div _ 1 L hL (by norm_num) (by exact_mod_cast hL)
    unfold eliteQuota
    push_cast
    rw [hcast, hcast0, e1, e2, if_pos hm]
    omega
  · have hr0 : 0 ≤ d % L := Int.emod_nonneg d hLZ
    have hrL : d % L < L := Int.emod_lt_of_pos d (by exact_mod_cast hL)
    have hrne : d % L ≠ 0 := fun hc => hm (mod_of_sub_emod_zero k L i hL hi hc)
    have e1 : ⌈(d : ℚ) / (L : ℚ)⌉ = d / L + 1 := by
      rw [show ((d : ℤ) : ℚ) = (((L : ℤ) * (d / L) + d % L : ℤ) : ℚ) from
        congrArg (fun z : ℤ => (z : ℚ)) (by omega)]
      exact ceil_add_div _ _ L hL (by omega) (by omega)
    have e2 : ⌈((d + 1 : ℤ) : ℚ) / (L : ℚ)⌉ = d / L + 1 := by
      rw [show ((d + 1 : ℤ) : ℚ) = (((L : ℤ) * (d / L) + (d % L + 1) : ℤ) : ℚ) from
        congrArg (fun z : ℤ => (z : ℚ)) (by omega)]
      exact ceil_add_div _ _ L hL (by omega) (by omega)
    unfold eliteQuota
    push_cast
    rw [hcast, hcast0, e1, e2, if_neg hm]
    omega

lemma sum_indicator (L m : ℕ) (hm : m < L) :
    ((List.range L).map (fun i => if i = m then 1 else 0)).sum = 1 := by
  induction L generalizing m with
  | zero => omega
  | succ n ih =>
    rw [List.range_succ_eq_map, List.map_cons, List.map_map, List.sum_cons]
    rcases m with _ | m'
    · rw [if_pos rfl]
      have h0 : (List.range n).map ((fun i => if i = 0 then 1 else 0) ∘ (· + 1)) =
          (List.range n).map (fun _ => 0) := by
        apply List.map_congr_left
        intro i _
        simp [Function.comp]
      rw [h0]
      simp
    · rw [if_neg (by omega)]
      have hcomp : (List.range n).map ((fun i => if i = m' + 1 then 1 else 0) ∘ (· + 1)) =
          (List.range n).map (fun i => if i = m' then 1 else 0) := by
        apply List.map_congr_left
        intro i _
        simp only [Function.comp]
        by_cases hc : i = m'
        · rw [if_pos hc, if_pos (by omega)]
        · rw [if_neg hc, if_neg (by omega)]
      rw [hcomp, ih m' (by omega)]

lemma sum_map_add (l : List ℕ) (f g : ℕ → ℕ) :
    (l.map (fun i => f i + g i)).sum = (l.map f).sum + (l.map g).sum := by
  induction l with
  | nil => simp
  | cons a l ih => simp [ih]; ring

/-- The positive per-rank quotas always sum to exactly `k`. -/
lemma eliteQuota_sum (L k : ℕ) (hL : 0 < L) :
    ((List.range L).map (fun i => eliteQuota k L i)).sum = k := by
  induction k with
  | zero =>
    apply List.sum_eq_zero
    intro x hx
    rw [List.mem_map] at hx
    obtain ⟨i, _, rfl⟩ := hx
    exact eliteQuota_zero L i
  | succ k ih =>
    have hcong : (List.range L).map (fun i => eliteQuota (k+1) L i) =
        (List.range L).map (fun i => eliteQuota k L i + if i = k % L then 1 else 0) := by
      apply List.map_congr_left
      intro i hi
      rw [List.mem_range] at hi
      exact eliteQuota_succ k L i hL hi
    rw [hcong, sum_map_add, ih, sum_indicator L (k % L) (Nat.mod_lt k hL)]

/-- On a nonempty population, elite selection emits exactly `k` winners. -/
lemma elite_length {α : Type*} (fitness : α → ℚ) (pop : List α) (k : ℕ)
    (hpop : pop ≠ []) : (EliteSelection.get_winners fitness pop k).length = k := by
  have hL : 0 < pop.length := List.length_pos.mpr hpop
  rw [EliteSelection.get_winners, if_neg (by omega), List.length_flatten, List.map_map]
  have h1 : (sortDesc fitness pop).enum.map
        (List.length ∘ fun p => List.replicate (eliteQuota k pop.length p.1) p.2) =
      (sortDesc fitness pop).enum.map (fun p => eliteQuota k pop.length p.1) := by
    apply List.map_congr_left
    intro p _
    simp [Function.comp]
  rw [h1, List.enum_eq_zip_range,
    show (fun p : ℕ × α => eliteQuota k pop.length p.1) =
      ((fun i => eliteQuota k pop.length i) ∘ Prod.fst) from rfl,
    ← List.map_map, List.map_fst_zip _ _ (by rw [List.length_range]),
    sortDesc_length, eliteQuota_sum pop.length k hL]

/-! ### Rank weight facts -/

lemma rankWeights_length (L : ℕ) : (rankWeights L).length = L := by
  rw [rankWeights, List.length_map, List.length_range]

lemma rankWeights_nonneg (L : ℕ) : ∀ w ∈ rankWeights L, 0 ≤ w := by
  intro w hw
  rw [rankWeights, List.mem_map] at hw
  obtain ⟨idx, hidx, rfl⟩ := hw
  rw [List.mem_range] at hidx
  apply div_nonneg _ (by positivity)
  have : (idx : ℚ) + 1 ≤ (L : ℚ) := by exact_mod_cast hidx
  linarith

lemma rankWeights_sum_pos (L : ℕ) (hL : 2 ≤ L) : 0 < (rankWeights L).sum := by
  obtain ⟨n, rfl⟩ : ∃ n, L = n + 1 := ⟨L - 1, by omega⟩
  rw [rankWeights, List.range_succ_eq_map, List.map_cons, List.sum_cons, List.map_map]
  have hn1 : (0 : ℚ) < ((n + 1 : ℕ) : ℚ) := by positivity
  have hhead : (0 : ℚ) < (((n + 1 : ℕ) : ℚ) - (((0 : ℕ) : ℚ) + 1)) / ((n + 1 : ℕ) : ℚ) := by
    apply div_pos _ hn1
    push_cast
    have : (1 : ℚ) ≤ (n : ℚ) := by exact_mod_cast (by omega : 1 ≤ n)
    linarith
  have htail : 0 ≤ ((List.range n).map
      ((fun idx : ℕ => (((n + 1 : ℕ) : ℚ) - ((idx : ℚ) + 1)) / ((n + 1 : ℕ) : ℚ)) ∘ (· + 1))).sum := by
    apply List.sum_nonneg
    intro x hx
    rw [List.mem_map] at hx
    obtain ⟨i, hi, rfl⟩ := hx
    rw [List.mem_range] at hi
    simp only [Function.comp]
    apply div_nonneg _ (by positivity)
    push_cast
    have : (i : ℚ) + 1 + 1 ≤ (n : ℚ) + 1 := by exact_mod_cast (by omega : i + 1 + 1 ≤ n + 1)
    linarith
  linarith

/-! ### Tournament helpers -/

lemma getD_mem {α : Type*} [Inhabited α] (l : List α) (n : ℕ) (h : n < l.length) :
    l.getD n default ∈ l := by
  rw [List.getD_eq_getElem?_getD, List.getElem?_eq_getElem h]
  exact List.getElem_mem h

lemma getD_eq_getElem {α : Type*} [Inhabited α] (l : List α) (n : ℕ)
    (h : n < l.length) : l.getD n default = l[n] := by
  rw [List.getD_eq_getElem?_getD, List.getElem?_eq_getElem h]
  rfl

/-- Invariant of the inner loop of a deterministic tournament draw: the
running best stays in the population, its fitness never decreases, and it
dominates every sample seen so far. -/
lemma tournament_foldl_spec {α : Type*} [Inhabited α] (fitness : α → ℚ)
    (pop : List α) (idx : ℕ → ℕ) (start : ℕ) (hidx : ∀ j, idx j < pop.length) :
    ∀ (js : List ℕ) (b : α), b ∈ pop →
    (js.foldl (fun best j =>
        let chosen := pop.getD (idx (start + 1 + j)) default
        if fitness best < fitness chosen then chosen else best) b) ∈ pop ∧
    fitness b ≤ fitness (js.foldl (fun best j =>
        let chosen := pop.getD (idx (start + 1 + j)) default
        if fitness best < fitness chosen then chosen else best) b) ∧
    ∀ j ∈ js, fitness (pop.getD (idx (start + 1 + j)) default) ≤
      fitness (js.foldl (fun best j =>
        let chosen := pop.getD (idx (start + 1 + j)) default
        if fitness best < fitness chosen then chosen else best) b) := by
  intro js
  induction js with
  | nil => exact fun b hb => ⟨hb, le_refl _, fun j hj => absurd hj (List.not_mem_nil j)⟩
  | cons j0 js' ih =>
    intro b hb
    rw [List.foldl_cons]
    set ch := pop.getD (idx (start + 1 + j0)) default with hch
    have hchmem : ch ∈ pop := getD_mem pop _ (hidx _)
    by_cases hc : fitness b < fitness ch
    · have hstep : (let chosen := pop.getD (idx (start + 1 + j0)) default
          if fitness b < fitness chosen then chosen else b) = ch := by
        simp only [← hch]
        rw [if_pos hc]
      rw [hstep]
      obtain ⟨hmem, hmono, hdom⟩ := ih ch hchmem
      refine ⟨hmem, le_trans (le_of_lt hc) hmono, ?_⟩
      intro j hj
      rcases List.mem_cons.mp hj with rfl | hj'
      · exact le_trans (le_of_eq rfl) hmono
      · exact hdom j hj'
    · have hstep : (let chosen := pop.getD (idx (start + 1 + j0)) default
          if fitness b < fitness chosen then chosen else b) = b := by
        simp only [← hch]
        rw [if_neg hc]
      rw [hstep]
      obtain ⟨hmem, hmono, hdom⟩ := ih b hb
      refine ⟨hmem, hmono, ?_⟩
      intro j hj
      rcases List.mem_cons.mp hj with rfl | hj'
      · exact le_trans (le_of_not_lt hc) hmono
      · exact hdom j hj'

/-- A tournament round returns a sampled individual that dominates every one
of the `m` samples of the round. -/
lemma tournamentRound_spec {α : Type*} [Inhabited α] (fitness : α → ℚ)
    (pop : List α) (idx : ℕ → ℕ) (start m : ℕ) (hidx : ∀ j, idx j < pop.length) :
    tournamentRound fitness pop idx start m ∈ pop ∧
    ∀ j, j < m → fitness (pop.getD (idx (start + j)) default) ≤
      fitness (tournamentRound fitness pop idx start m) := by
  have hfirst : pop.getD (idx start) default ∈ pop := getD_mem pop _ (hidx _)
  obtain ⟨hmem, hmono, hdom⟩ := tournament_foldl_spec fitness pop idx start hidx
    (List.range (m - 1)) (pop.getD (idx start) default) hfirst
  refine ⟨hmem, ?_⟩
  intro j hj
  rcases j with _ | j'
  · rw [Nat.add_zero]
    exact hmono
  · have hj' : j' ∈ List.range (m - 1) := List.mem_range.mpr (by omega)
    have := hdom j' hj'
    rw [show start + 1 + j' = start + (j' + 1) by omega] at this
    exact this

/-! ### Sum and division helpers -/

lemma sum_map_div (l : List ℚ) (c : ℚ) :
    (l.map (fun x => x / c)).sum = l.sum / c := by
  induction l with
  | nil => simp
  | cons a l ih =>
    rw [List.map_cons, List.sum_cons, List.sum_cons, ih, add_div]

lemma pos_of_div_pos (w S : ℚ) (hS : 0 < S) (h : 0 < w / S) : 0 < w := by
  by_contra hw
  have : w / S ≤ 0 := div_nonpos_of_nonpos_of_nonneg (le_of_not_lt hw) (le_of_lt hS)
  linarith

/-! ### Claim theorems -/

/-- C9: for every non-empty population of length `L` and every `k ≥ 0`,
`EliteSelection.get_winners` returns exactly `k` winners: the per-rank
quotas `ceil((k - i) / L)` for `i = 0..L-1` (only positive quotas produce
copies) sum to exactly `k`. -/
theorem elite_quota_sum_exactly_k {α : Type*} (fitness : α → ℚ) (pop : List α)
    (k : ℕ) (hpop : pop ≠ []) :
    (EliteSelection.get_winners fitness pop k).length = k ∧
    ((List.range pop.length).map (fun i => eliteQuota k pop.length i)).sum = k :=
  ⟨elite_length fitness pop k hpop,
    eliteQuota_sum pop.length k (List.length_pos.mpr hpop)⟩

theorem elite_quota_sum_exactly_k_witness :
    (EliteSelection.get_winners (fun _ => (0 : ℚ)) [(0 : ℕ)] 3).length = 3 ∧
    ((List.range 1).map (fun i => eliteQuota 3 1 i)).sum = 3 := by
  have h := elite_quota_sum_exactly_k (fun _ => (0 : ℚ)) [(0 : ℕ)] 3 (by simp)
  simpa using h

/-- C10: on a population with exactly one individual and `k ≥ 1`,
`RankSelection.get_winners` raises `ZeroDivisionError` (modelled `none`):
the rank weight vector is `[0]`, its sum is `0`, and the engine divides by
that sum inside the first draw. -/
theorem rank_singleton_division_by_zero {α : Type*} (fitness : α → ℚ)
    (pop : List α) (k : ℕ) (rs : ℕ → ℚ) (hpop : pop.length = 1) (hk : 1 ≤ k) :
    RankSelection.get_winners fitness pop k rs = none := by
  obtain ⟨a, rfl⟩ := List.length_eq_one.mp hpop
  rw [RankSelection.get_winners, if_neg (by simp)]
  have hws : rankWeights ([a] : List α).length = [(0 : ℚ)] := by
    rw [show ([a] : List α).length = 1 from rfl, rankWeights, List.range_succ,
      List.range_zero]
    norm_num
  have hsort : sortDesc fitness [a] = [a] := rfl
  rw [do_roulette, hws, hsort]
  have hsum : ([(0 : ℚ)]).sum = 0 := by simp
  rw [hsum]
  apply do_rouletteAux_none
  · simp
  · simp only [ne_eq, List.range_eq_nil]
    omega

theorem rank_singleton_division_by_zero_witness :
    RankSelection.get_winners (fun _ => (5 : ℚ)) [(0 : ℕ)] 1 (fun _ => 1/2) = none :=
  rank_singleton_division_by_zero (fun _ => (5 : ℚ)) [(0 : ℕ)] 1 (fun _ => 1/2)
    rfl (le_refl 1)

/-- C1: `do_roulette` performs `k` draws; draw `i` uses uniform value `rs i`
and selects `population[j]` for the first index `j` with
`acc < r ≤ acc + w_j / S`, the accumulator advancing by `w_j / S`
(`specDraw` transcribes that walk); and `RouletteWheelSelection` invokes the
engine with `w_j = fitness(population[j])`. -/
theorem roulette_engine_first_crossing {α : Type*} (pop : List α) (ws : List ℚ)
    (k : ℕ) (rs : ℕ → ℚ) (fitness : α → ℚ) (hlen : ws.length = pop.length)
    (hnn : ∀ w ∈ ws, 0 ≤ w) (hS : 0 < ws.sum) :
    do_roulette pop pop.length k ws rs =
      some (((List.range k).map (fun i => specDraw pop ws ws.sum (rs i))).flatten) ∧
    RouletteWheelSelection.get_winners fitness pop k rs =
      do_roulette pop pop.length k (pop.map fitness) rs := by
  constructor
  · exact do_roulette_eq_spec pop ws k rs (ne_of_gt hS) hlen
  · rw [RouletteWheelSelection.get_winners]
    by_cases hp : pop.length = 0
    · rw [if_pos hp]
      have hnil : pop = [] := List.length_eq_zero.mp hp
      subst hnil
      rw [do_roulette]
      exact (do_rouletteAux_nil _ rs (List.range k)).symm
    · rw [if_neg hp]

theorem roulette_engine_first_crossing_witness :
    do_roulette [(0 : ℕ), 1] 2 1 [(1 : ℚ), 3] (fun _ => 1/2) =
      some (((List.range 1).map
        (fun i => specDraw [(0 : ℕ), 1] [(1 : ℚ), 3] ([(1 : ℚ), 3]).sum
          ((fun _ => (1 : ℚ)/2) i))).flatten) ∧
    RouletteWheelSelection.get_winners (fun x : ℕ => (x : ℚ)) [0, 1] 1 (fun _ => 1/2) =
      do_roulette [0, 1] 2 1 ([0, 1].map (fun x : ℕ => (x : ℚ))) (fun _ => 1/2) := by
  have h := roulette_engine_first_crossing [(0 : ℕ), 1] [(1 : ℚ), 3] 1 (fun _ => 1/2)
    (fun x : ℕ => (x : ℚ)) (by simp) (by norm_num) (by norm_num)
  simpa using h

/-- C4 counterexample: with an individual weight `-1` (total `1`), the
engine does not fail at all: it silently returns `population[1]`, directly
contradicting the required fail-fast domain error. -/
theorem roulette_engine_negative_weight_silent_cex :
    do_roulette [(10 : ℕ), 20] 2 1 [(-1 : ℚ), 2] (fun _ => 1/2) = some [20] ∧
    do_roulette [(10 : ℕ)] 1 0 [(0 : ℚ)] (fun _ => 1/2) = some [] := by
  constructor
  · norm_num [do_roulette, do_rouletteAux, rouletteWalk, List.range_succ]
  · rfl

/-- C4 amended: the engine performs no validation of its weights.  With a
zero total it raises `ZeroDivisionError` at the first division of the first
draw, and only when at least one draw and one pair are processed; with any
nonzero total (even with negative individual weights) it silently returns a
result. -/
theorem roulette_engine_no_validation {α : Type*} (pop : List α) (len k : ℕ)
    (ws : List ℚ) (rs : ℕ → ℚ) :
    (ws.sum = 0 → 1 ≤ k → (pop.zip ws).take len ≠ [] →
      do_roulette pop len k ws rs = none) ∧
    (ws.sum ≠ 0 → ∃ out, do_roulette pop len k ws rs = some out) := by
  constructor
  · intro hsum hk hne
    rw [do_roulette, hsum]
    apply do_rouletteAux_none _ rs hne
    simp only [ne_eq, List.range_eq_nil]
    omega
  · intro hsum
    exact do_roulette_isSome pop len k ws rs hsum

theorem roulette_engine_no_validation_witness :
    do_roulette [(0 : ℕ)] 1 1 [(0 : ℚ)] (fun _ => 1/2) = none ∧
    ∃ out, do_roulette [(10 : ℕ), 20] 2 1 [(-1 : ℚ), 2] (fun _ => 1/2) = some out := by
  constructor
  · exact (roulette_engine_no_validation [(0 : ℕ)] 1 1 [(0 : ℚ)] (fun _ => 1/2)).1
      (by simp) (le_refl 1) (by simp)
  · exact (roulette_engine_no_validation [(10 : ℕ), 20] 2 1 [(-1 : ℚ), 2]
      (fun _ => 1/2)).2 (by norm_num)

/-- C5 counterexample: two distinct individuals of equal fitness; draw 0
samples first `population[0] = 0`, second `population[1] = 1`, and
`u 0 = 0 < 3/4 = t`.  The output is the second sample `1`, not the first:
the strict comparison `first_fitness > second_fitness` is false on a tie, so
`best = second` and `worst = first`, opposite to the claim. -/
theorem prob_tournament_tie_first_not_output_cex :
    ProbabilisticTournamentSelection.get_winners (fun _ => (0 : ℚ)) [0, 1] 1 (3/4)
      (fun _ => 0) (fun _ => 1) (fun _ => 0) = [(1 : ℕ)] ∧ (1 : ℕ) ≠ 0 := by
  constructor
  · norm_num [ProbabilisticTournamentSelection.get_winners, List.range_succ]
  · omega

/-- C5 amended: when the two samples of a draw have equal fitness, the code
labels the second sample `best` and the first `worst` (non-strict ties go to
the second), so with `u i < t` the second sampled individual is output, and
otherwise the first. -/
theorem prob_tournament_tie_second_best {α : Type*} [Inhabited α]
    (fitness : α → ℚ) (pop : List α) (k i : ℕ) (t : ℚ) (i1 i2 : ℕ → ℕ)
    (u : ℕ → ℚ) (hpop : pop ≠ []) (hik : i < k)
    (htie : fitness (pop.getD (i1 i) default) = fitness (pop.getD (i2 i) default)) :
    (ProbabilisticTournamentSelection.get_winners fitness pop k t i1 i2 u)[i]? =
      some (if u i < t then pop.getD (i2 i) default
        else pop.getD (i1 i) default) := by
  rw [ProbabilisticTournamentSelection.get_winners,
    if_neg (fun h => hpop (List.length_eq_zero.mp h))]
  rw [List.getElem?_map, List.getElem?_range hik]
  have hlt : ¬ (fitness (pop.getD (i2 i) default) <
      fitness (pop.getD (i1 i) default)) := by
    rw [htie]
    exact lt_irrefl _
  simp only [Option.map_some', if_neg hlt]

theorem prob_tournament_tie_second_best_witness :
    (ProbabilisticTournamentSelection.get_winners (fun _ => (0 : ℚ)) [0, 1] 1 (3/4)
      (fun _ => 0) (fun _ => 1) (fun _ => 0))[0]? =
      some (if (0 : ℚ) < 3/4 then ([0, 1] : List ℕ).getD 1 default
        else ([0, 1] : List ℕ).getD 0 default) := by
  have h := prob_tournament_tie_second_best (fun _ => (0 : ℚ)) [(0 : ℕ), 1] 1 0 (3/4)
    (fun _ => 0) (fun _ => 1) (fun _ => 0) (by simp) (by omega) rfl
  simpa using h

/-- C6 counterexample: population `[0, 1]` with fitness equal to the value,
tournament size `m = 2 = length`, one draw whose two index samples (drawn
with replacement) are both `0`.  The draw returns individual `0`, not the
unique best-fitness individual `1`. -/
theorem det_tournament_with_replacement_misses_best_cex :
    DeterministicTournamentSelection.get_winners 2 (fun x : ℕ => (x : ℚ)) [0, 1] 1
      (fun _ => 0) = [(0 : ℕ)] ∧
    ((0 : ℕ) : ℚ) < ((1 : ℕ) : ℚ) ∧ (1 : ℕ) ∈ [0, 1] := by
  refine ⟨?_, by norm_num, by simp⟩
  norm_num [DeterministicTournamentSelection.get_winners, tournamentRound,
    List.range_succ]

/-- C6 amended: with `m = length` the samples are still drawn with
replacement, so a draw can miss the maximum (see the counterexample); but
whenever the `m` index samples of draw `i` cover every population position —
in particular whenever they are pairwise distinct — the draw returns an
individual of maximal fitness (the earliest sampled one on ties). -/
theorem det_tournament_covering_draw_finds_max {α : Type*} [Inhabited α]
    (fitness : α → ℚ) (pop : List α) (k i : ℕ) (idx : ℕ → ℕ) (hpop : pop ≠ [])
    (hik : i < k) (hidx : ∀ j, idx j < pop.length)
    (hcov : ∀ t, t < pop.length →
      ∃ j, j < pop.length ∧ idx (i * pop.length + j) = t) :
    ∃ w, (DeterministicTournamentSelection.get_winners pop.length fitness pop k
        idx)[i]? = some w ∧ w ∈ pop ∧ ∀ x ∈ pop, fitness x ≤ fitness w := by
  rw [DeterministicTournamentSelection.get_winners,
    if_neg (fun h => hpop (List.length_eq_zero.mp h))]
  rw [List.getElem?_map, List.getElem?_range hik]
  refine ⟨tournamentRound fitness pop idx (i * pop.length) pop.length, rfl, ?_, ?_⟩
  · exact (tournamentRound_spec fitness pop idx (i * pop.length) pop.length hidx).1
  · intro x hx
    obtain ⟨tpos, htpos, rfl⟩ := List.mem_iff_getElem.mp hx
    obtain ⟨j, hj, hjt⟩ := hcov tpos htpos
    have hdom := (tournamentRound_spec fitness pop idx (i * pop.length)
      pop.length hidx).2 j hj
    rw [hjt, getD_eq_getElem pop tpos htpos] at hdom
    exact hdom

theorem det_tournament_covering_draw_finds_max_witness :
    ∃ w : ℕ, (DeterministicTournamentSelection.get_winners ([0, 1] : List ℕ).length
        (fun x : ℕ => (x : ℚ)) [0, 1] 1 (fun j => j % 2))[0]? = some w ∧
      w ∈ ([0, 1] : List ℕ) ∧
      ∀ x ∈ ([0, 1] : List ℕ), (fun y : ℕ => (y : ℚ)) x ≤ (fun y : ℕ => (y : ℚ)) w :=
  det_tournament_covering_draw_finds_max (fun x : ℕ => (x : ℚ))
    [(0 : ℕ), 1] 1 0 (fun j => j % 2) (by simp) (by omega)
    (fun j => by
      have h2 : j % 2 < 2 := Nat.mod_lt j (by omega)
      exact h2)
    (fun t ht => ⟨t, ht, by
      have ht2 : t < 2 := ht
      show (0 * ([0, 1] : List ℕ).length + t) % 2 = t
      have h3 : (0 * ([0, 1] : List ℕ).length + t) % 2 = t % 2 := by
        norm_num
      omega⟩)

/-- C7 counterexample: a population holding the same individual `7` twice
(the spec allows duplicate references).  The duplicate occupies both sorted
positions, so the individual at the last sorted position is also at position
0 with weight `1/2` and is selected: it appears in the winners, contradicting
the claim that it never does. -/
theorem rank_duplicate_worst_reference_selected_cex :
    RankSelection.get_winners (fun _ => (1 : ℚ)) [7, 7] 1 (fun _ => 1/2) =
      some [(7 : ℕ)] ∧
    (sortDesc (fun _ => (1 : ℚ)) [7, 7]).getLast? = some (7 : ℕ) ∧
    (7 : ℕ) ∈ [(7 : ℕ)] := by
  refine ⟨?_, by norm_num [sortDesc, insertDesc], by simp⟩
  norm_num [RankSelection.get_winners, rankWeights, do_roulette, do_rouletteAux,
    rouletteWalk, sortDesc, insertDesc, List.range_succ]

/-- C7 amended: `RankSelection` sorts best first, assigns weight
`(length - (idx+1)) / length` to sorted index `idx` and feeds these weights
to the engine; the last sorted position has weight exactly `0` and is never
the selected position, so every winner comes from the first `length - 1`
sorted positions.  (The worst individual itself can still appear when the
same individual also occupies an earlier sorted position, as with duplicate
references — see the counterexample.) -/
theorem rank_worst_position_never_selected {α : Type*} (fitness : α → ℚ)
    (pop : List α) (k : ℕ) (rs : ℕ → ℚ) (hL : 2 ≤ pop.length) :
    RankSelection.get_winners fitness pop k rs =
      do_roulette (sortDesc fitness pop) pop.length k (rankWeights pop.length) rs ∧
    (rankWeights pop.length).getD (pop.length - 1) 0 = 0 ∧
    ∃ out, RankSelection.get_winners fitness pop k rs = some out ∧
      ∀ x ∈ out, x ∈ (sortDesc fitness pop).take (pop.length - 1) := by
  have hLpos : 0 < pop.length := by omega
  have hsum := rankWeights_sum_pos pop.length hL
  have hguard : ¬ pop.length = 0 := by omega
  refine ⟨by rw [RankSelection.get_winners, if_neg hguard], ?_, ?_⟩
  · rw [rankWeights, List.getD_eq_getElem?_getD, List.getElem?_map,
      List.getElem?_range (by omega : pop.length - 1 < pop.length)]
    simp only [Option.map_some', Option.getD_some]
    have hcast : ((pop.length - 1 : ℕ) : ℚ) = (pop.length : ℚ) - 1 := by
      push_cast [Nat.cast_sub (by omega : 1 ≤ pop.length)]
      ring
    rw [hcast]
    have hnum : (pop.length : ℚ) - ((pop.length : ℚ) - 1 + 1) = 0 := by ring
    rw [hnum, zero_div]
  · obtain ⟨out, hout⟩ := do_roulette_isSome (sortDesc fitness pop) pop.length k
      (rankWeights pop.length) rs (ne_of_gt hsum)
    refine ⟨out, by rw [RankSelection.get_winners, if_neg hguard]; exact hout, ?_⟩
    intro x hx
    rw [do_roulette] at hout
    have htake : ((sortDesc fitness pop).zip (rankWeights pop.length)).take pop.length
        = (sortDesc fitness pop).zip (rankWeights pop.length) := by
      apply List.take_of_length_le
      rw [List.length_zip, sortDesc_length, rankWeights_length, min_self]
    rw [htake] at hout
    obtain ⟨j, hj, hfst, hsnd⟩ := do_rouletteAux_mem _ _ rs (List.range k) out hout x hx
    have hjlt : j < pop.length := by
      have h2 := hj
      rw [List.length_zip, sortDesc_length, rankWeights_length, min_self] at h2
      exact h2
    have hs : j < (sortDesc fitness pop).length := by
      rw [sortDesc_length]
      exact hjlt
    have hw : j < (rankWeights pop.length).length := by
      rw [rankWeights_length]
      exact hjlt
    have hpair : ((sortDesc fitness pop).zip (rankWeights pop.length)).get ⟨j, hj⟩ =
        ((sortDesc fitness pop).get ⟨j, hs⟩, (rankWeights pop.length).get ⟨j, hw⟩) := by
      simp [List.get_eq_getElem, List.getElem_zip]
    rw [hpair] at hfst hsnd
    simp only [] at hfst hsnd
    have hwval : (rankWeights pop.length).get ⟨j, hw⟩ =
        ((pop.length : ℚ) - ((j : ℚ) + 1)) / pop.length := by
      simp [rankWeights, List.get_eq_getElem, List.getElem_map, List.getElem_range]
    have hwpos : 0 < (rankWeights pop.length).get ⟨j, hw⟩ :=
      pos_of_div_pos _ _ hsum hsnd
    rw [hwval] at hwpos
    have hnum : 0 < (pop.length : ℚ) - ((j : ℚ) + 1) :=
      pos_of_div_pos _ _ (by exact_mod_cast hLpos) hwpos
    have hjlt1 : j < pop.length - 1 := by
      have hq : (j : ℚ) + 1 < (pop.length : ℚ) := by linarith
      have h2 : j + 1 < pop.length := by exact_mod_cast hq
      omega
    rw [← hfst]
    have hsjtake : j < ((sortDesc fitness pop).take (pop.length - 1)).length := by
      rw [List.length_take, sortDesc_length]
      omega
    have hteq : ((sortDesc fitness pop).take (pop.length - 1)).get ⟨j, hsjtake⟩ =
        (sortDesc fitness pop).get ⟨j, hs⟩ := by
      simp [List.get_eq_getElem, List.getElem_take]
    rw [← hteq, List.get_eq_getElem]
    exact List.getElem_mem _

theorem rank_worst_position_never_selected_witness :
    RankSelection.get_winners (fun x : ℕ => (x : ℚ)) [5, 6] 1 (fun _ => 1/2) =
      do_roulette (sortDesc (fun x : ℕ => (x : ℚ)) [5, 6]) ([5, 6] : List ℕ).length 1
        (rankWeights ([5, 6] : List ℕ).length) (fun _ => 1/2) ∧
    (rankWeights ([5, 6] : List ℕ).length).getD (([5, 6] : List ℕ).length - 1) 0 = 0 ∧
    ∃ out, RankSelection.get_winners (fun x : ℕ => (x : ℚ)) [5, 6] 1 (fun _ => 1/2) =
      some out ∧ ∀ x ∈ out,
        x ∈ (sortDesc (fun x : ℕ => (x : ℚ)) [5, 6]).take (([5, 6] : List ℕ).length - 1) :=
  rank_worst_position_never_selected (fun x : ℕ => (x : ℚ)) [5, 6] 1 (fun _ => 1/2)
    (by simp)

/-- Unfolding of the Boltzmann strategy on a nonempty population with a
positive exponential and nonzero temperature: it is the engine applied to
the mean-normalized weights, which are nonnegative, have the population
length, and sum to the population length. -/
lemma boltzmann_unfold {α : Type*} (t0 tc rate : ℚ) (E : ℚ → ℚ)
    (fitness : α → ℚ) (pop : List α) (k : ℕ) (rs : ℕ → ℚ) (hpop : pop ≠ [])
    (hE : ∀ x, 0 < E x) (htemp : temperature t0 tc rate k E ≠ 0) :
    EntropicBoltzmannSelection.get_winners t0 tc rate E fitness pop k rs =
      do_roulette pop pop.length k (boltzmannWeights t0 tc rate E fitness pop k) rs ∧
    (boltzmannWeights t0 tc rate E fitness pop k).length = pop.length ∧
    (boltzmannWeights t0 tc rate E fitness pop k).sum = (pop.length : ℚ) ∧
    (∀ w ∈ boltzmannWeights t0 tc rate E fitness pop k, 0 ≤ w) := by
  have hg : ¬ pop.length = 0 := fun h => hpop (List.length_eq_zero.mp h)
  have hLpos : 0 < pop.length := List.length_pos.mpr hpop
  have hplen : (pop.map (fun ind => E (fitness ind / temperature t0 tc rate k E))).length
      = pop.length := List.length_map pop _
  have hpne : pop.map (fun ind => E (fitness ind / temperature t0 tc rate k E)) ≠ [] := by
    intro h
    exact hpop (List.map_eq_nil.mp h)
  have hpsum : 0 < (pop.map (fun ind => E (fitness ind / temperature t0 tc rate k E))).sum := by
    apply List.sum_pos
    · intro a ha
      rw [List.mem_map] at ha
      obtain ⟨ind, _, rfl⟩ := ha
      exact hE _
    · exact hpne
  have havg : 0 < (pop.map (fun ind => E (fitness ind / temperature t0 tc rate k E))).sum /
      ((pop.map (fun ind => E (fitness ind / temperature t0 tc rate k E))).length : ℚ) := by
    apply div_pos hpsum
    rw [hplen]
    exact_mod_cast hLpos
  refine ⟨?_, ?_, ?_, ?_⟩
  · unfold EntropicBoltzmannSelection.get_winners boltzmannWeights boltzmannPseudo
    rw [if_neg hg]
    simp only [if_neg htemp, if_neg (ne_of_gt havg)]
  · simp only [boltzmannWeights, boltzmannPseudo, List.length_map]
  · have hS0 : (pop.map (fun ind => E (fitness ind / temperature t0 tc rate k E))).sum ≠ 0 :=
      ne_of_gt hpsum
    simp only [boltzmannWeights, boltzmannPseudo]
    rw [sum_map_div, hplen, div_div_eq_mul_div, mul_comm, mul_div_assoc,
      div_self hS0, mul_one]
  · intro w hw
    simp only [boltzmannWeights, boltzmannPseudo, List.mem_map] at hw
    obtain ⟨p, hp, rfl⟩ := hw
    obtain ⟨ind, _, rfl⟩ := hp
    exact le_of_lt (div_pos (hE _) havg)

/-- When the computed temperature is zero, the strategy raises the Python
`ZeroDivisionError` of `ind.fitness() / temp` while building the
pseudo-fitness list, before any weight reaches the engine. -/
lemma boltzmann_zero_temp_none {α : Type*} (t0 tc rate : ℚ) (E : ℚ → ℚ)
    (fitness : α → ℚ) (pop : List α) (k : ℕ) (rs : ℕ → ℚ) (hpop : pop ≠ [])
    (htemp : temperature t0 tc rate k E = 0) :
    EntropicBoltzmannSelection.get_winners t0 tc rate E fitness pop k rs = none := by
  unfold EntropicBoltzmannSelection.get_winners
  rw [if_neg (fun h => hpop (List.length_eq_zero.mp h))]
  simp only [if_pos htemp]

/-- C8 counterexample: `EntropicBoltzmannSelection(T0=0, Tc=0, rate=1)` on
the nonempty population `[0]` with `k = 1`: the computed temperature is
`0 + (0 - 0) * exp(-1) = 0` (the factor `T0 - Tc = 0` makes the value of
`exp` immaterial, so `E := fun _ => 1` is harmless), `fitness / temp` raises
`ZeroDivisionError`, and no weights are ever computed or passed to the
engine — the pipeline the claim describes does not run for this call. -/
theorem boltzmann_zero_temperature_k1_cex :
    EntropicBoltzmannSelection.get_winners 0 0 1 (fun _ => 1) (fun _ => (0 : ℚ))
      [(0 : ℕ)] 1 (fun _ => 1/2) = none ∧
    temperature 0 0 1 1 (fun _ => 1) = 0 := by
  constructor
  · norm_num [EntropicBoltzmannSelection.get_winners, temperature]
  · norm_num [temperature]

/-- C8 amended: on a nonempty population (with `exp` positive, as the real
exponential is), if the computed temperature
`temp = Tc + (T0 - Tc) * exp(-rate * k)` — evaluated with the requested
output count `k` as the schedule's time variable — is zero, the call raises
a division error and nothing reaches the engine (see the counterexample);
otherwise the strategy builds `pseudo_j = exp(fitness_j / temp)`, divides
each by the mean of all pseudo values — the resulting weights average to
1 — and hands them to `do_roulette`, which normalizes them a second time by
their sum (the relative weight in each spec draw is `w_j / sum`). -/
theorem boltzmann_schedule_and_double_normalization {α : Type*}
    (t0 tc rate : ℚ) (E : ℚ → ℚ) (fitness : α → ℚ) (pop : List α) (k : ℕ)
    (rs : ℕ → ℚ) (hpop : pop ≠ []) (hE : ∀ x, 0 < E x) :
    (temperature t0 tc rate k E = 0 →
      EntropicBoltzmannSelection.get_winners t0 tc rate E fitness pop k rs = none) ∧
    (temperature t0 tc rate k E ≠ 0 →
      temperature t0 tc rate k E = tc + (t0 - tc) * E (-(rate * k)) ∧
      EntropicBoltzmannSelection.get_winners t0 tc rate E fitness pop k rs =
        do_roulette pop pop.length k (boltzmannWeights t0 tc rate E fitness pop k) rs ∧
      (boltzmannWeights t0 tc rate E fitness pop k).sum /
        ((boltzmannWeights t0 tc rate E fitness pop k).length : ℚ) = 1 ∧
      do_roulette pop pop.length k (boltzmannWeights t0 tc rate E fitness pop k) rs =
        some (((List.range k).map (fun i => specDraw pop
          (boltzmannWeights t0 tc rate E fitness pop k)
          (boltzmannWeights t0 tc rate E fitness pop k).sum (rs i))).flatten)) := by
  constructor
  · intro htemp
    exact boltzmann_zero_temp_none t0 tc rate E fitness pop k rs hpop htemp
  · intro htemp
    obtain ⟨h1, h2, h3, _⟩ :=
      boltzmann_unfold t0 tc rate E fitness pop k rs hpop hE htemp
    have hLpos : 0 < pop.length := List.length_pos.mpr hpop
    have hLQ : ((pop.length : ℚ)) ≠ 0 := by
      have : (0 : ℚ) < (pop.length : ℚ) := by exact_mod_cast hLpos
      exact ne_of_gt this
    refine ⟨rfl, h1, ?_, ?_⟩
    · rw [h2, h3]
      exact div_self hLQ
    · exact do_roulette_eq_spec pop _ k rs (by rw [h3]; exact hLQ) h2

theorem boltzmann_schedule_and_double_normalization_witness :
    EntropicBoltzmannSelection.get_winners 0 0 1 (fun _ => 1) (fun _ => (0 : ℚ))
      [(0 : ℕ)] 1 (fun _ => 1/2) = none ∧
    (temperature 2 1 1 1 (fun _ => 1) =
        1 + (2 - 1) * (fun _ : ℚ => (1 : ℚ)) (-(1 * 1)) ∧
      EntropicBoltzmannSelection.get_winners 2 1 1 (fun _ => 1) (fun _ => (0 : ℚ))
          [(0 : ℕ)] 1 (fun _ => 1/2) =
        do_roulette [(0 : ℕ)] ([(0 : ℕ)] : List ℕ).length 1
          (boltzmannWeights 2 1 1 (fun _ => 1) (fun _ => (0 : ℚ)) [(0 : ℕ)] 1)
          (fun _ => 1/2) ∧
      (boltzmannWeights 2 1 1 (fun _ => 1) (fun _ => (0 : ℚ)) [(0 : ℕ)] 1).sum /
        ((boltzmannWeights 2 1 1 (fun _ => 1) (fun _ => (0 : ℚ)) [(0 : ℕ)] 1).length : ℚ)
          = 1 ∧
      do_roulette [(0 : ℕ)] ([(0 : ℕ)] : List ℕ).length 1
          (boltzmannWeights 2 1 1 (fun _ => 1) (fun _ => (0 : ℚ)) [(0 : ℕ)] 1)
          (fun _ => 1/2) =
        some (((List.range 1).map (fun i => specDraw [(0 : ℕ)]
          (boltzmannWeights 2 1 1 (fun _ => 1) (fun _ => (0 : ℚ)) [(0 : ℕ)] 1)
          (boltzmannWeights 2 1 1 (fun _ => 1) (fun _ => (0 : ℚ)) [(0 : ℕ)] 1).sum
          ((fun _ => (1 : ℚ)/2) i))).flatten)) :=
  ⟨(boltzmann_schedule_and_double_normalization 0 0 1 (fun _ => 1)
      (fun _ => (0 : ℚ)) [(0 : ℕ)] 1 (fun _ => 1/2) (by simp)
      (fun _ => one_pos)).1 (by norm_num [temperature]),
    (boltzmann_schedule_and_double_normalization 2 1 1 (fun _ => 1)
      (fun _ => (0 : ℚ)) [(0 : ℕ)] 1 (fun _ => 1/2) (by simp)
      (fun _ => one_pos)).2 (by norm_num [temperature])⟩

/-- C2 counterexample: `EntropicBoltzmannSelection(T0=0, Tc=0, rate=1)` on a
nonempty population with `k = 0` does not return an empty winners sequence:
the temperature `Tc + (T0 - Tc) * exp(-rate * 0) = 0` is computed before the
`k`-loop and `fitness / temp` raises `ZeroDivisionError`.  (`exp` is only
evaluated at `0`, where `exp 0 = 1`, so `E := fun _ => 1` agrees with
`math.exp` at every evaluated point.) -/
theorem boltzmann_zero_temperature_k0_cex :
    EntropicBoltzmannSelection.get_winners 0 0 1 (fun _ => 1) (fun _ => (0 : ℚ))
      [(0 : ℕ)] 0 (fun _ => 1/2) = none ∧
    temperature 0 0 1 0 (fun _ => 1) = 0 := by
  constructor
  · norm_num [EntropicBoltzmannSelection.get_winners, temperature]
  · norm_num [temperature]

/-- C2 amended: every one of the seven strategies returns the empty winners
sequence on an empty population (any `k`, before any fitness evaluation: the
result is the same for every fitness function) and with `k = 0` on any
population — except that `EntropicBoltzmannSelection` evaluates its
temperature and pseudo-fitness even when `k = 0`, and raises a division
error when the computed temperature is zero (see the counterexample); it
too returns empty at `k = 0` whenever that temperature is nonzero (`exp`
being positive). -/
theorem strategies_empty_winners {α : Type*} [Inhabited α] :
    (∀ (f : α → ℚ) (k : ℕ), EliteSelection.get_winners f ([] : List α) k = []) ∧
    (∀ (f : α → ℚ) (pop : List α), EliteSelection.get_winners f pop 0 = []) ∧
    (∀ (f : α → ℚ) (k : ℕ) (rs : ℕ → ℚ),
      RouletteWheelSelection.get_winners f ([] : List α) k rs = some []) ∧
    (∀ (f : α → ℚ) (pop : List α) (rs : ℕ → ℚ),
      RouletteWheelSelection.get_winners f pop 0 rs = some []) ∧
    (∀ (f : α → ℚ) (k : ℕ) (r : ℚ),
      UniversalSelection.get_winners f ([] : List α) k r = some []) ∧
    (∀ (f : α → ℚ) (pop : List α) (r : ℚ),
      UniversalSelection.get_winners f pop 0 r = some []) ∧
    (∀ (f : α → ℚ) (k : ℕ) (rs : ℕ → ℚ),
      RankSelection.get_winners f ([] : List α) k rs = some []) ∧
    (∀ (f : α → ℚ) (pop : List α) (rs : ℕ → ℚ),
      RankSelection.get_winners f pop 0 rs = some []) ∧
    (∀ (t0 tc rate : ℚ) (E : ℚ → ℚ) (f : α → ℚ) (k : ℕ) (rs : ℕ → ℚ),
      EntropicBoltzmannSelection.get_winners t0 tc rate E f ([] : List α) k rs
        = some []) ∧
    (∀ (t0 tc rate : ℚ) (E : ℚ → ℚ) (f : α → ℚ) (pop : List α) (rs : ℕ → ℚ),
      (∀ x, 0 < E x) → temperature t0 tc rate 0 E ≠ 0 →
      EntropicBoltzmannSelection.get_winners t0 tc rate E f pop 0 rs = some []) ∧
    (∀ (m : ℕ) (f : α → ℚ) (k : ℕ) (idx : ℕ → ℕ),
      DeterministicTournamentSelection.get_winners m f ([] : List α) k idx = []) ∧
    (∀ (m : ℕ) (f : α → ℚ) (pop : List α) (idx : ℕ → ℕ),
      DeterministicTournamentSelection.get_winners m f pop 0 idx = []) ∧
    (∀ (f : α → ℚ) (k : ℕ) (t : ℚ) (i1 i2 : ℕ → ℕ) (u : ℕ → ℚ),
      ProbabilisticTournamentSelection.get_winners f ([] : List α) k t i1 i2 u = []) ∧
    (∀ (f : α → ℚ) (pop : List α) (t : ℚ) (i1 i2 : ℕ → ℕ) (u : ℕ → ℚ),
      ProbabilisticTournamentSelection.get_winners f pop 0 t i1 i2 u = []) := by
  refine ⟨fun f k => rfl, ?_, fun f k rs => rfl, ?_, fun f k r => rfl, ?_,
    fun f k rs => rfl, ?_, fun t0 tc rate E f k rs => rfl, ?_,
    fun m f k idx => rfl, ?_, fun f k t i1 i2 u => rfl, ?_⟩
  · intro f pop
    match pop with
    | [] => rfl
    | a :: pop' =>
      exact List.length_eq_zero.mp (elite_length f (a :: pop') 0 (by simp))
  · intro f pop rs
    match pop with
    | [] => rfl
    | a :: pop' => rfl
  · intro f pop r
    match pop with
    | [] => rfl
    | a :: pop' => rfl
  · intro f pop rs
    match pop with
    | [] => rfl
    | a :: pop' => rfl
  · intro t0 tc rate E f pop rs hE htemp
    match pop with
    | [] => rfl
    | a :: pop' =>
      have h := (boltzmann_unfold t0 tc rate E f (a :: pop') 0 rs (by simp) hE htemp).1
      rw [h]
      rfl
  · intro m f pop idx
    match pop with
    | [] => rfl
    | a :: pop' => rfl
  · intro f pop t i1 i2 u
    match pop with
    | [] => rfl
    | a :: pop' => rfl

theorem strategies_empty_winners_witness :
    EliteSelection.get_winners (fun _ => (0 : ℚ)) ([] : List ℕ) 5 = [] ∧
    EliteSelection.get_winners (fun _ => (0 : ℚ)) [(3 : ℕ)] 0 = [] ∧
    RouletteWheelSelection.get_winners (fun _ => (1 : ℚ)) [(3 : ℕ)] 0
      (fun _ => 1/2) = some [] ∧
    UniversalSelection.get_winners (fun _ => (1 : ℚ)) [(3 : ℕ)] 0 (1/2) = some [] ∧
    RankSelection.get_winners (fun _ => (1 : ℚ)) [(3 : ℕ)] 0 (fun _ => 1/2)
      = some [] ∧
    EntropicBoltzmannSelection.get_winners 1 1 1 (fun _ => 1) (fun _ => (0 : ℚ))
      [(3 : ℕ)] 0 (fun _ => 1/2) = some [] ∧
    DeterministicTournamentSelection.get_winners 2 (fun _ => (0 : ℚ)) [(3 : ℕ)] 0
      (fun _ => 0) = [] ∧
    ProbabilisticTournamentSelection.get_winners (fun _ => (0 : ℚ)) [(3 : ℕ)] 0
      (3/4) (fun _ => 0) (fun _ => 0) (fun _ => 0) = [] := by
  obtain ⟨h1, h2, h3, h4, h5, h6, h7, h8, h9, h10, h11, h12, h13, h14⟩ :=
    @strategies_empty_winners ℕ _
  exact ⟨h1 _ 5, h2 _ _, h4 _ _ _, h6 _ _ _, h8 _ _ _,
    h10 1 1 1 (fun _ => 1) _ _ _ (fun _ => one_pos) (by norm_num [temperature]),
    h12 2 _ _ _, h14 _ _ _ _ _ _⟩

/-- C3 counterexample: `RouletteWheelSelection` on the nonempty population
`[5]` whose only fitness is `0`: the total weight is `0`, the first draw's
division raises `ZeroDivisionError`, and no winners sequence (of length
`k = 1` or otherwise) is returned. -/
theorem roulette_zero_fitness_count_cex :
    RouletteWheelSelection.get_winners (fun _ => (0 : ℚ)) [(5 : ℕ)] 1
      (fun _ => 1/2) = none ∧ ([(5 : ℕ)] : List ℕ) ≠ [] := by
  refine ⟨?_, by simp⟩
  norm_num [RouletteWheelSelection.get_winners, do_roulette, do_rouletteAux,
    rouletteWalk, List.range_succ]

/-- C3 amended: on a nonempty population every strategy except
`EliteSelection` returns exactly `k` winners, provided its accumulated-weight
walk (when it has one) receives a valid weight vector and in-range uniforms:
nonnegative fitness with positive sum for `RouletteWheelSelection` and
`UniversalSelection`, at least two individuals for `RankSelection`, a
positive exponential and nonzero temperature for
`EntropicBoltzmannSelection`, and every uniform draw in `(0, 1]`.  The two
tournament strategies need no side condition.  (As stated the claim fails:
with an invalid weight vector the walk-based strategies raise instead — see
the counterexample — and a draw equal to `0` selects nothing.) -/
theorem nonelite_winner_count {α : Type*} [Inhabited α] :
    (∀ (f : α → ℚ) (pop : List α) (k : ℕ) (rs : ℕ → ℚ), pop ≠ [] →
      (∀ x ∈ pop, 0 ≤ f x) → 0 < (pop.map f).sum →
      (∀ i, i < k → 0 < rs i ∧ rs i ≤ 1) →
      ∃ out, RouletteWheelSelection.get_winners f pop k rs = some out ∧
        out.length = k) ∧
    (∀ (f : α → ℚ) (pop : List α) (k : ℕ) (r : ℚ), pop ≠ [] →
      (∀ x ∈ pop, 0 ≤ f x) → 0 < (pop.map f).sum → 0 < r → r ≤ 1 →
      ∃ out, UniversalSelection.get_winners f pop k r = some out ∧
        out.length = k) ∧
    (∀ (f : α → ℚ) (pop : List α) (k : ℕ) (rs : ℕ → ℚ), 2 ≤ pop.length →
      (∀ i, i < k → 0 < rs i ∧ rs i ≤ 1) →
      ∃ out, RankSelection.get_winners f pop k rs = some out ∧
        out.length = k) ∧
    (∀ (t0 tc rate : ℚ) (E : ℚ → ℚ) (f : α → ℚ) (pop : List α) (k : ℕ)
      (rs : ℕ → ℚ), pop ≠ [] → (∀ x, 0 < E x) →
      temperature t0 tc rate k E ≠ 0 →
      (∀ i, i < k → 0 < rs i ∧ rs i ≤ 1) →
      ∃ out, EntropicBoltzmannSelection.get_winners t0 tc rate E f pop k rs
        = some out ∧ out.length = k) ∧
    (∀ (m : ℕ) (f : α → ℚ) (pop : List α) (k : ℕ) (idx : ℕ → ℕ), pop ≠ [] →
      (DeterministicTournamentSelection.get_winners m f pop k idx).length = k) ∧
    (∀ (f : α → ℚ) (pop : List α) (k : ℕ) (t : ℚ) (i1 i2 : ℕ → ℕ) (u : ℕ → ℚ),
      pop ≠ [] →
      (ProbabilisticTournamentSelection.get_winners f pop k t i1 i2 u).length = k) := by
  refine ⟨?_, ?_, ?_, ?_, ?_, ?_⟩
  · intro f pop k rs hpop hnn hsum hr
    rw [RouletteWheelSelection.get_winners,
      if_neg (fun h => hpop (List.length_eq_zero.mp h))]
    apply do_roulette_length pop (pop.map f) k rs (List.length_map pop f) _ hsum hr
    intro w hw
    rw [List.mem_map] at hw
    obtain ⟨x, hx, rfl⟩ := hw
    exact hnn x hx
  · intro f pop k r hpop hnn hsum hr0 hr1
    rw [UniversalSelection.get_winners,
      if_neg (fun h => hpop (List.length_eq_zero.mp h))]
    apply do_roulette_length pop (pop.map f) k _ (List.length_map pop f) _ hsum
    · intro i hik
      have hk : 0 < k := lt_of_le_of_lt (Nat.zero_le i) hik
      have hkQ : (0 : ℚ) < (k : ℚ) := by exact_mod_cast hk
      constructor
      · apply div_pos _ hkQ
        have hi0 : (0 : ℚ) ≤ (i : ℚ) := Nat.cast_nonneg i
        linarith
      · rw [div_le_one hkQ]
        have hik1 : (i : ℚ) + 1 ≤ (k : ℚ) := by exact_mod_cast hik
        linarith
    · intro w hw
      rw [List.mem_map] at hw
      obtain ⟨x, hx, rfl⟩ := hw
      exact hnn x hx
  · intro f pop k rs hL hr
    rw [RankSelection.get_winners, if_neg (by omega)]
    have hsl : (sortDesc f pop).length = pop.length := sortDesc_length f pop
    rw [show pop.length = (sortDesc f pop).length from hsl.symm]
    exact do_roulette_length (sortDesc f pop) (rankWeights (sortDesc f pop).length)
      k rs (rankWeights_length _) (rankWeights_nonneg _)
      (rankWeights_sum_pos _ (by rw [hsl]; exact hL)) hr
  · intro t0 tc rate E f pop k rs hpop hE htemp hr
    obtain ⟨h1, h2, h3, h4⟩ := boltzmann_unfold t0 tc rate E f pop k rs hpop hE htemp
    rw [h1]
    apply do_roulette_length pop _ k rs h2 h4 _ hr
    rw [h3]
    exact_mod_cast List.length_pos.mpr hpop
  · intro m f pop k idx hpop
    rw [DeterministicTournamentSelection.get_winners,
      if_neg (fun h => hpop (List.length_eq_zero.mp h)),
      List.length_map, List.length_range]
  · intro f pop k t i1 i2 u hpop
    rw [ProbabilisticTournamentSelection.get_winners,
      if_neg (fun h => hpop (List.length_eq_zero.mp h)),
      List.length_map, List.length_range]

theorem nonelite_winner_count_witness :
    (∃ out, RouletteWheelSelection.get_winners (fun _ => (1 : ℚ)) [(0 : ℕ)] 1
      (fun _ => 1/2) = some out ∧ out.length = 1) ∧
    (∃ out, UniversalSelection.get_winners (fun _ => (1 : ℚ)) [(0 : ℕ)] 1 (1/2)
      = some out ∧ out.length = 1) ∧
    (∃ out, RankSelection.get_winners (fun _ => (1 : ℚ)) [(5 : ℕ), 6] 1
      (fun _ => 1/2) = some out ∧ out.length = 1) ∧
    (∃ out, EntropicBoltzmannSelection.get_winners 2 1 1 (fun _ => 1)
      (fun _ => (0 : ℚ)) [(0 : ℕ)] 1 (fun _ => 1/2) = some out ∧
      out.length = 1) ∧
    (DeterministicTournamentSelection.get_winners 1 (fun _ => (0 : ℚ)) [(0 : ℕ)] 2
      (fun _ => 0)).length = 2 ∧
    (ProbabilisticTournamentSelection.get_winners (fun _ => (0 : ℚ)) [(0 : ℕ)] 2
      (3/4) (fun _ => 0) (fun _ => 0) (fun _ => 0)).length = 2 := by
  obtain ⟨h1, h2, h3, h4, h5, h6⟩ := @nonelite_winner_count ℕ _
  refine ⟨h1 _ _ 1 _ (by simp) (by norm_num) (by norm_num)
      (fun i _ => ⟨by norm_num, by norm_num⟩),
    h2 _ _ 1 _ (by simp) (by norm_num) (by norm_num) (by norm_num) (by norm_num),
    h3 _ _ 1 _ (by simp) (fun i _ => ⟨by norm_num, by norm_num⟩),
    h4 2 1 1 (fun _ => 1) _ _ 1 _ (by simp) (fun _ => one_pos)
      (by norm_num [temperature]) (fun i _ => ⟨by norm_num, by norm_num⟩),
    h5 1 _ _ 2 _ (by simp),
    h6 _ _ 2 _ _ _ _ (by simp)⟩
